/-
Verification of the semaphore-free parallel executor
(src/ocrmypdf/extra_plugins/semfree.py).

The Python module is shallowly embedded below:

* Python `None` is modelled by `Option.none`, so lists of Python values
  appear as `List (Option α)`; an actual task-argument tuple is `some a`.
* `split_every`, the `zip_longest` transposition and the `is not None`
  filter of `LambdaExecutor._execute` are modelled by `splitEvery`,
  `zipLongest` and `workerArgsOf`.
* A worker process (`process_loop`) is modelled by the trace of effects it
  performs (`processLoopTrace`): install the SIGBUS handler, reconfigure
  logging, run the user initializer, send messages, close the channel.
* The multiplexed receive loop of the coordinator is modelled by `coordLoop` /
  `coordRun`, a deterministic fold over a schedule: the (nondeterministic)
  order in which `multiprocessing.connection.wait` hands over ready
  channel events.  Quantifying over schedules quantifies over all
  interleavings.
-/
import Mathlib

namespace Semfree

/-- A structured log record, as handed to `logging` handlers: the fields
used by the module are the originating logger name, the numeric level and
the message text. -/
structure LogRecord where
  name : String
  levelno : ℕ
  msg : String
deriving DecidableEq

/-- The tagged messages a worker sends over its pipe.  The source uses
`MessageType.result/exception/complete` plus the ad hoc string tag
`log`, a bare string (sent by `ConnectionLogHandler.enqueue`); both kinds are unified
here.  `other` stands for any received pair whose tag is none of the four
recognized ones (the pipe can transport arbitrary picklable values, so
such messages are representable results of `recv` in the coordinator). -/
inductive WireMsg (β E L : Type) where
  | result (b : β)
  | log (r : L)
  | complete
  | exception (e : E)
  | other
deriving DecidableEq

/-- Fuel-indexed core of `split_every`.  The Python source builds
`takewhile(bool, (list(islice(iterator, n)) for _ in repeat(None)))`:
repeatedly take the next `n` elements until the slice comes back empty.
The fuel argument (instantiated with the input length, which bounds the
number of non-empty slices when `1 ≤ n`) makes the recursion structural. -/
def splitEveryFuel (n : ℕ) : ℕ → List α → List (List α)
  | _, [] => []
  | 0, _ :: _ => []
  | fuel + 1, a :: l => ((a :: l).take n) :: splitEveryFuel n fuel ((a :: l).drop n)

/-- Model of `split_every(n, iterable)`: split a list into consecutive chunks of
`n` elements (the last chunk may be shorter).  For `n = 0` the first
slice is already empty, so `takewhile` stops at once with no chunks. -/
def splitEvery (n : ℕ) (l : List α) : List (List α) :=
  if n = 0 then [] else splitEveryFuel n l.length l

theorem splitEveryFuel_nil (n fuel : ℕ) : splitEveryFuel n fuel ([] : List α) = [] := by
  cases fuel <;> rfl

theorem splitEveryFuel_congr (n : ℕ) (hn : 1 ≤ n) :
    ∀ (f g : ℕ) (l : List α), l.length ≤ f → l.length ≤ g →
      splitEveryFuel n f l = splitEveryFuel n g l := by
  intro f
  induction f with
  | zero =>
    intro g l hf _
    have hl : l = [] := List.length_eq_zero.mp (Nat.le_zero.mp hf)
    subst hl
    rw [splitEveryFuel_nil, splitEveryFuel_nil]
  | succ f ih =>
    intro g l hf hg
    cases l with
    | nil => rw [splitEveryFuel_nil, splitEveryFuel_nil]
    | cons a t =>
      cases g with
      | zero => simp at hg
      | succ g =>
        simp only [splitEveryFuel]
        congr 1
        apply ih
        · simp only [List.length_drop, List.length_cons]
          simp only [List.length_cons] at hf
          omega
        · simp only [List.length_drop, List.length_cons]
          simp only [List.length_cons] at hg
          omega

theorem splitEvery_nil (n : ℕ) : splitEvery n ([] : List α) = [] := by
  unfold splitEvery
  split
  · rfl
  · exact splitEveryFuel_nil _ _

theorem splitEvery_eq_cons (n : ℕ) (hn : 1 ≤ n) (l : List α) (hl : l ≠ []) :
    splitEvery n l = l.take n :: splitEvery n (l.drop n) := by
  cases l with
  | nil => exact absurd rfl hl
  | cons a t =>
    unfold splitEvery
    rw [if_neg (by omega), if_neg (by omega)]
    simp only [List.length_cons, splitEveryFuel]
    congr 1
    apply splitEveryFuel_congr n hn
    · simp only [List.length_drop, List.length_cons]; omega
    · exact Nat.le_refl _

/-- Concatenating the chunks of `split_every` gives back the input. -/
theorem splitEvery_flatten (n : ℕ) (hn : 1 ≤ n) (l : List α) :
    (splitEvery n l).flatten = l := by
  have key : ∀ (fuel : ℕ) (l : List α), l.length ≤ fuel →
      (splitEvery n l).flatten = l := by
    intro fuel
    induction fuel with
    | zero =>
      intro l hf
      have hl : l = [] := List.length_eq_zero.mp (Nat.le_zero.mp hf)
      subst hl
      rw [splitEvery_nil]
      rfl
    | succ fuel ih =>
      intro l hf
      by_cases hl : l = []
      · subst hl; rw [splitEvery_nil]; rfl
      · rw [splitEvery_eq_cons n hn l hl, List.flatten_cons,
          ih (l.drop n) (by
            simp only [List.length_drop]
            have : l.length ≠ 0 := fun h => hl (List.length_eq_zero.mp h)
            omega)]
        exact List.take_append_drop n l
  exact key l.length l (Nat.le_refl _)

/-- Length of the longest member, used for the number of rows that
`zip_longest` produces. -/
def maxLen (ls : List (List α)) : ℕ :=
  ls.foldr (fun l m => max l.length m) 0

theorem maxLen_cons (c : List α) (cs : List (List α)) :
    maxLen (c :: cs) = max c.length (maxLen cs) := rfl

theorem maxLen_splitEvery (n : ℕ) (hn : 1 ≤ n) (l : List α) :
    maxLen (splitEvery n l) = min n l.length := by
  have key : ∀ (fuel : ℕ) (l : List α), l.length ≤ fuel →
      maxLen (splitEvery n l) = min n l.length := by
    intro fuel
    induction fuel with
    | zero =>
      intro l hf
      have hl : l = [] := List.length_eq_zero.mp (Nat.le_zero.mp hf)
      subst hl
      rw [splitEvery_nil]
      simp [maxLen]
    | succ fuel ih =>
      intro l hf
      by_cases hl : l = []
      · subst hl; rw [splitEvery_nil]; simp [maxLen]
      · have hlen : l.length ≠ 0 := fun h => hl (List.length_eq_zero.mp h)
        rw [splitEvery_eq_cons n hn l hl, maxLen_cons,
          ih (l.drop n) (by simp only [List.length_drop]; omega)]
        simp only [List.length_take, List.length_drop]
        omega
  exact key l.length l (Nat.le_refl _)

/-- Model of `itertools.zip_longest(*ls)` with the default `None` fill value,
generalized over the padding element: row `j` collects the `j`-th element
of every member of `ls`, padding members that are too short, and there
are as many rows as the longest member is long. -/
def zipLongest (pad : α) (ls : List (List α)) : List (List α) :=
  (List.range (maxLen ls)).map fun j => ls.map fun c => c.getD j pad

/-- Model of `[args for args in chunk if args is not None]` from
`LambdaExecutor._execute`: Python `None` is `Option.none`. -/
def workerArgsOf (chunk : List (Option α)) : List (Option α) :=
  chunk.filter fun a => a.isSome

/-- The per-worker task groups computed by `LambdaExecutor._execute`:
`zip_longest(*list(split_every(max_workers, task_arguments)))`, each row
then stripped of `None` entries. -/
def workerGroups (maxWorkers : ℕ) (taskArguments : List (Option α)) :
    List (List (Option α)) :=
  (zipLongest none (splitEvery maxWorkers taskArguments)).map workerArgsOf

/-- Fuel-indexed core of `specGroup`, structural recursion as for
`splitEveryFuel`. -/
def specGroupFuel (W i : ℕ) : ℕ → List (Option α) → List (Option α)
  | _, [] => []
  | 0, _ :: _ => []
  | fuel + 1, a :: l => ((a :: l)[i]?).toList ++ specGroupFuel W i fuel ((a :: l).drop W)

/-- The description that the specification gives of task group `i` (spec §4.1 and §8):
the elements of the input sequence found at original indices
`i, i + W, i + 2·W, …` — element `i` of the list, then element `i` of the
list with the first `W` elements dropped (original index `i + W`), and so
on.  This definition follows the wording of the spec; the theorems compare it
with `workerGroups` from the implementation. -/
def specGroup (W i : ℕ) (l : List (Option α)) : List (Option α) :=
  if W = 0 then [] else specGroupFuel W i l.length l

theorem specGroupFuel_nil (W i fuel : ℕ) :
    specGroupFuel W i fuel ([] : List (Option α)) = [] := by
  cases fuel <;> rfl

theorem specGroupFuel_congr (W i : ℕ) (hW : 1 ≤ W) :
    ∀ (f g : ℕ) (l : List (Option α)), l.length ≤ f → l.length ≤ g →
      specGroupFuel W i f l = specGroupFuel W i g l := by
  intro f
  induction f with
  | zero =>
    intro g l hf _
    have hl : l = [] := List.length_eq_zero.mp (Nat.le_zero.mp hf)
    subst hl
    rw [specGroupFuel_nil, specGroupFuel_nil]
  | succ f ih =>
    intro g l hf hg
    cases l with
    | nil => rw [specGroupFuel_nil, specGroupFuel_nil]
    | cons a t =>
      cases g with
      | zero => simp at hg
      | succ g =>
        simp only [specGroupFuel]
        congr 1
        apply ih
        · simp only [List.length_drop, List.length_cons]
          simp only [List.length_cons] at hf
          omega
        · simp only [List.length_drop, List.length_cons]
          simp only [List.length_cons] at hg
          omega

theorem specGroup_nil (W i : ℕ) : specGroup W i ([] : List (Option α)) = [] := by
  unfold specGroup
  split
  · rfl
  · exact specGroupFuel_nil _ _ _

theorem specGroup_eq_cons (W i : ℕ) (hW : 1 ≤ W) (l : List (Option α)) (hl : l ≠ []) :
    specGroup W i l = (l[i]?).toList ++ specGroup W i (l.drop W) := by
  cases l with
  | nil => exact absurd rfl hl
  | cons a t =>
    unfold specGroup
    rw [if_neg (by omega), if_neg (by omega)]
    simp only [List.length_cons, specGroupFuel]
    congr 1
    apply specGroupFuel_congr W i hW
    · simp only [List.length_drop, List.length_cons]; omega
    · exact Nat.le_refl _

/-- Indices past the end of the list contribute nothing. -/
theorem specGroup_eq_nil_of_le (W i : ℕ) (l : List (Option α))
    (hi : l.length ≤ i) : specGroup W i l = [] := by
  by_cases hW : W = 0
  · subst hW; unfold specGroup; rw [if_pos rfl]
  · have hW1 : 1 ≤ W := by omega
    have key : ∀ (fuel : ℕ) (l : List (Option α)), l.length ≤ fuel →
        l.length ≤ i → specGroup W i l = [] := by
      intro fuel
      induction fuel with
      | zero =>
        intro l hf _
        have hl : l = [] := List.length_eq_zero.mp (Nat.le_zero.mp hf)
        subst hl
        exact specGroup_nil W i
      | succ fuel ih =>
        intro l hf hi
        by_cases hl : l = []
        · subst hl; exact specGroup_nil W i
        · have hlen : l.length ≠ 0 := fun h => hl (List.length_eq_zero.mp h)
          rw [specGroup_eq_cons W i hW1 l hl,
            List.getElem?_eq_none hi, Option.toList_none, List.nil_append]
          apply ih
          · simp only [List.length_drop]; omega
          · simp only [List.length_drop]; omega
    exact key l.length l (Nat.le_refl _) hi

/-- Every element of a spec group is an element of the input list. -/
theorem mem_of_mem_specGroup (W i : ℕ) (l : List (Option α)) (a : Option α)
    (ha : a ∈ specGroup W i l) : a ∈ l := by
  by_cases hW : W = 0
  · subst hW; unfold specGroup at ha; rw [if_pos rfl] at ha; simp at ha
  · have hW1 : 1 ≤ W := by omega
    have key : ∀ (fuel : ℕ) (l : List (Option α)), l.length ≤ fuel →
        a ∈ specGroup W i l → a ∈ l := by
      intro fuel
      induction fuel with
      | zero =>
        intro l hf ha
        have hl : l = [] := List.length_eq_zero.mp (Nat.le_zero.mp hf)
        subst hl
        rw [specGroup_nil] at ha
        simp at ha
      | succ fuel ih =>
        intro l hf ha
        by_cases hl : l = []
        · subst hl; rw [specGroup_nil] at ha; simp at ha
        · have hlen : l.length ≠ 0 := fun h => hl (List.length_eq_zero.mp h)
          rw [specGroup_eq_cons W i hW1 l hl, List.mem_append] at ha
          rcases ha with ha | ha
          · rw [Option.mem_toList] at ha
            rcases List.getElem?_eq_some.mp ha with ⟨hlt, hEq⟩
            exact hEq ▸ List.getElem_mem hlt
          · exact List.drop_subset W l
              (ih (l.drop W) (by simp only [List.length_drop]; omega) ha)
    exact key l.length l (Nat.le_refl _) ha

theorem getD_map_range {γ : Type*} (M : ℕ) (f : ℕ → γ) (i : ℕ) (d : γ) :
    ((List.range M).map f).getD i d = if i < M then f i else d := by
  rw [List.getD_eq_getElem?_getD, List.getElem?_map]
  by_cases h : i < M
  · rw [List.getElem?_range h]
    simp [h]
  · rw [List.getElem?_eq_none (by simpa using Nat.le_of_not_lt h)]
    simp [h]

theorem flatten_map_filter {γ δ : Type*} (p : γ → Bool) (h : δ → List γ)
    (xs : List δ) :
    (xs.map fun x => (h x).filter p).flatten = ((xs.map h).flatten).filter p := by
  induction xs with
  | nil => rfl
  | cons x xs ih => simp [List.filter_append, ih]

theorem flatten_map_append_perm {γ δ : Type*} (f g : δ → List γ) (xs : List δ) :
    List.Perm ((xs.map fun x => f x ++ g x).flatten)
      ((xs.map f).flatten ++ (xs.map g).flatten) := by
  induction xs with
  | nil => simp
  | cons x xs ih =>
    simp only [List.map_cons, List.flatten_cons]
    refine (List.Perm.append_left (f x ++ g x) ih).trans ?_
    rw [List.append_assoc, List.append_assoc]
    exact List.Perm.append_left (f x) (List.perm_append_comm_assoc _ _ _)

theorem flatten_map_getElem?_toList {γ : Type*} (l : List γ) :
    ∀ m : ℕ, ((List.range m).map fun i => (l[i]?).toList).flatten = l.take m := by
  intro m
  induction m with
  | zero => simp
  | succ m ih =>
    rw [List.range_succ, List.map_append, List.flatten_append, ih]
    simp [List.take_succ]

theorem flatten_map_range_extend {γ : Type*} (M W : ℕ) (hMW : M ≤ W)
    (h : ℕ → List γ) (hnil : ∀ j, M ≤ j → j < W → h j = []) :
    ((List.range W).map h).flatten = ((List.range M).map h).flatten := by
  have hW : W = M + (W - M) := by omega
  rw [hW, List.range_add, List.map_append, List.flatten_append]
  have h2 : ((List.range (W - M)).map fun x => M + x).map h = (List.range (W - M)).map fun x => h (M + x) := by
    rw [List.map_map]
    rfl
  rw [h2]
  have h3 : ((List.range (W - M)).map fun x => h (M + x)).flatten = [] := by
    rw [List.flatten_eq_nil_iff]
    intro l hl
    rcases List.mem_map.mp hl with ⟨x, hx, rfl⟩
    exact hnil (M + x) (Nat.le_add_right _ _)
      (by rcases List.mem_range.mp hx with hx2; omega)
  rw [h3, List.append_nil]

/-- The union (in spec order) of the spec groups `0, …, W-1` is a
permutation of the input. -/
theorem specGroups_flatten_perm (W : ℕ) (hW : 1 ≤ W) (l : List (Option α)) :
    List.Perm (((List.range W).map fun i => specGroup W i l).flatten) l := by
  have key : ∀ (fuel : ℕ) (l : List (Option α)), l.length ≤ fuel →
      List.Perm (((List.range W).map fun i => specGroup W i l).flatten) l := by
    intro fuel
    induction fuel with
    | zero =>
      intro l hf
      have hl : l = [] := List.length_eq_zero.mp (Nat.le_zero.mp hf)
      subst hl
      simp [specGroup_nil]
    | succ fuel ih =>
      intro l hf
      by_cases hl : l = []
      · subst hl; simp [specGroup_nil]
      · have hlen : l.length ≠ 0 := fun h => hl (List.length_eq_zero.mp h)
        have hrw : ((List.range W).map fun i => specGroup W i l)
            = (List.range W).map fun i => (l[i]?).toList ++ specGroup W i (l.drop W) := by
          apply List.map_congr_left
          intro i _
          exact specGroup_eq_cons W i hW l hl
        rw [hrw]
        refine (flatten_map_append_perm _ _ _).trans ?_
        rw [flatten_map_getElem?_toList]
        have hdrop : List.Perm
            (((List.range W).map fun i => specGroup W i (l.drop W)).flatten)
            (l.drop W) := by
          apply ih
          simp only [List.length_drop]
          omega
        refine (List.Perm.append_left (l.take W) hdrop).trans ?_
        rw [List.take_append_drop]
  exact key l.length l (Nat.le_refl _)

/-- Row `i` of the transposition, with the padding and the `None` values
of the input itself filtered away, is exactly the spec group `i`, likewise
filtered. -/
theorem row_filter_eq (n : ℕ) (hn : 1 ≤ n) (i : ℕ) (hi : i < n)
    (l : List (Option α)) :
    (((splitEvery n l).map fun c => c.getD i none).filter fun a => a.isSome)
      = (specGroup n i l).filter fun a => a.isSome := by
  have key : ∀ (fuel : ℕ) (l : List (Option α)), l.length ≤ fuel →
      (((splitEvery n l).map fun c => c.getD i none).filter fun a => a.isSome)
        = (specGroup n i l).filter fun a => a.isSome := by
    intro fuel
    induction fuel with
    | zero =>
      intro l hf
      have hl : l = [] := List.length_eq_zero.mp (Nat.le_zero.mp hf)
      subst hl
      rw [splitEvery_nil, specGroup_nil]
      rfl
    | succ fuel ih =>
      intro l hf
      by_cases hl : l = []
      · subst hl; rw [splitEvery_nil, specGroup_nil]; rfl
      · have hlen : l.length ≠ 0 := fun h => hl (List.length_eq_zero.mp h)
        rw [splitEvery_eq_cons n hn l hl, specGroup_eq_cons n i (by omega) l hl]
        rw [List.map_cons,
          show (l.take n).getD i none :: ((splitEvery n (l.drop n)).map fun c => c.getD i none)
              = [(l.take n).getD i none] ++ ((splitEvery n (l.drop n)).map fun c => c.getD i none)
            from rfl,
          List.filter_append, List.filter_append]
        have htail := ih (l.drop n) (by simp only [List.length_drop]; omega)
        rw [htail]
        congr 1
        have hhead : (l.take n).getD i none = (l[i]?).getD none := by
          rw [List.getD_eq_getElem?_getD, List.getElem?_take_of_lt hi]
        rw [hhead]
        cases hx : l[i]? with
        | none => simp
        | some a => simp
  exact key l.length l (Nat.le_refl _)

/-- Lemma writing `workerGroups` as a map over row indices. -/
theorem workerGroups_eq_map_range (W : ℕ) (l : List (Option α)) :
    workerGroups W l
      = (List.range (maxLen (splitEvery W l))).map fun j =>
          ((splitEvery W l).map fun c => c.getD j none).filter fun a => a.isSome := by
  unfold workerGroups zipLongest workerArgsOf
  rw [List.map_map]
  rfl

/-- Group `i` of the implemented partition, for any `i < W`, equals
the spec group `i` with `None` entries removed (missing rows count as
empty groups). -/
theorem workerGroups_getD (W : ℕ) (hW : 1 ≤ W) (l : List (Option α)) (i : ℕ)
    (hi : i < W) :
    (workerGroups W l).getD i []
      = (specGroup W i l).filter fun a => a.isSome := by
  rw [workerGroups_eq_map_range, getD_map_range, maxLen_splitEvery W hW]
  by_cases h : i < min W l.length
  · rw [if_pos h]
    exact row_filter_eq W hW i hi l
  · rw [if_neg h]
    rw [specGroup_eq_nil_of_le W i l (by omega)]
    rfl

/-- The concatenation of all task groups is a permutation of the input
with its `None` elements removed. -/
theorem workerGroups_flatten_perm (W : ℕ) (hW : 1 ≤ W) (l : List (Option α)) :
    List.Perm ((workerGroups W l).flatten) (l.filter fun a => a.isSome) := by
  rw [workerGroups_eq_map_range]
  have hrows : ((List.range (maxLen (splitEvery W l))).map fun j =>
        ((splitEvery W l).map fun c => c.getD j none).filter fun a => a.isSome)
      = (List.range (maxLen (splitEvery W l))).map fun j =>
          (specGroup W j l).filter fun a => a.isSome := by
    apply List.map_congr_left
    intro j hj
    have hjW : j < W := by
      rcases List.mem_range.mp hj with hj2
      rw [maxLen_splitEvery W hW] at hj2
      omega
    exact row_filter_eq W hW j hjW l
  rw [hrows]
  have hextend : ((List.range W).map fun j => (specGroup W j l).filter fun a => a.isSome).flatten
      = ((List.range (maxLen (splitEvery W l))).map fun j => (specGroup W j l).filter fun a => a.isSome).flatten := by
    apply flatten_map_range_extend
    · rw [maxLen_splitEvery W hW]; omega
    · intro j hj1 hj2
      rw [maxLen_splitEvery W hW] at hj1
      rw [specGroup_eq_nil_of_le W j l (by omega)]
      rfl
  rw [← hextend, flatten_map_filter]
  exact List.Perm.filter _ (specGroups_flatten_perm W hW l)

/-- C1: for every task-argument sequence (of any length `T`) and every
worker count `W ≥ 1`, the partition computed by `split_every` followed by
the `zip_longest` transposition with `None` padding removed yields groups
whose union (concatenation) is a permutation of the original sequence —
no duplication, no omission — and group `i` is exactly the sublist of
elements at original indices `i, i + W, i + 2·W, …` (groups beyond the
produced rows are empty, as is `specGroup` there).  Genuine argument
tuples are never Python `None`, so the input is embedded as
`tasks.map some`. -/
theorem c1_partition_round_robin {α : Type} (W : ℕ) (hW : 1 ≤ W)
    (tasks : List α) :
    (∀ i, i < W →
      (workerGroups W (tasks.map some)).getD i [] = specGroup W i (tasks.map some))
    ∧ List.Perm ((workerGroups W (tasks.map some)).flatten) (tasks.map some) := by
  have hall : ∀ a ∈ tasks.map some, (Option.isSome a) = true := by
    intro a ha
    rcases List.mem_map.mp ha with ⟨b, _, rfl⟩
    rfl
  constructor
  · intro i hi
    rw [workerGroups_getD W hW _ i hi]
    apply List.filter_eq_self.mpr
    intro a ha
    exact hall a (mem_of_mem_specGroup W i _ a ha)
  · have hperm := workerGroups_flatten_perm W hW (tasks.map some)
    rwa [List.filter_eq_self.mpr hall] at hperm

/-- Witness for C1 at the round-trip scenario of the spec: 10 tasks and
3 workers. -/
theorem c1_witness :
    1 ≤ 3 ∧ ((∀ i, i < 3 →
      (workerGroups 3 (([0, 1, 2, 3, 4, 5, 6, 7, 8, 9] : List ℕ).map some)).getD i []
        = specGroup 3 i (([0, 1, 2, 3, 4, 5, 6, 7, 8, 9] : List ℕ).map some))
    ∧ List.Perm
        ((workerGroups 3 (([0, 1, 2, 3, 4, 5, 6, 7, 8, 9] : List ℕ).map some)).flatten)
        (([0, 1, 2, 3, 4, 5, 6, 7, 8, 9] : List ℕ).map some)) :=
  ⟨by decide, c1_partition_round_robin 3 (by decide) [0, 1, 2, 3, 4, 5, 6, 7, 8, 9]⟩

/-- C10: because `zip_longest` pads with `None` and each worker group
is formed by dropping `None` entries, an input element that is itself
`None` is omitted from every task group: no group contains `None`, and
the union of the groups is a permutation of the input *filtered to its
non-`None` elements* — so the partition preserves all elements exactly
when no element is `None`. -/
theorem c10_none_omitted {α : Type} (W : ℕ) (hW : 1 ≤ W) (l : List (Option α)) :
    (∀ g ∈ workerGroups W l, Option.none ∉ g)
    ∧ List.Perm ((workerGroups W l).flatten) (l.filter fun a => a.isSome) := by
  constructor
  · intro g hg hmem
    rcases List.mem_map.mp hg with ⟨row, _, rfl⟩
    unfold workerArgsOf at hmem
    have hfalse := (List.mem_filter.mp hmem).2
    simp at hfalse
  · exact workerGroups_flatten_perm W hW l

/-- Witness for C10: worker count 2 on a sequence whose middle element is
Python `None`; the groups keep only the two non-`None` elements. -/
theorem c10_witness :
    1 ≤ 2 ∧ ((∀ g ∈ workerGroups 2 [some 1, Option.none, some 2], Option.none ∉ g)
    ∧ List.Perm ((workerGroups 2 [some 1, Option.none, some 2]).flatten)
        ([some 1, Option.none, some 2].filter fun a => a.isSome)) :=
  ⟨by decide, c10_none_omitted 2 (by decide) [some 1, Option.none, some 2]⟩

/-- The observable effects of the executor code paths, in program
order: the SIGBUS-handler installation of `process_loop`, its root-logger
reconfiguration (with the level passed by the coordinator), its single
`user_init()` call, each `conn.send(...)`, the final `conn.close()`; and
the `task_finished(result, pbar)` callbacks of the fallback path. -/
inductive Action (β E L P : Type) where
  | installSigbus
  | setupLogging (level : ℕ)
  | initCall
  | send (m : WireMsg β E L)
  | close
  | taskFinished (b : β) (p : P)
deriving DecidableEq

/-- The messages sent by the task loop of `process_loop`: for each argument
tuple in order, `task(*args)` either succeeds — send `result` and
continue — or raises — send `exception` and `break`.  A fallible call is
embedded as `Except`. -/
def taskLoopMsgs {α β E L : Type} (task : α → Except E β) :
    List α → List (WireMsg β E L)
  | [] => []
  | a :: rest =>
    match task a with
    | Except.ok r => WireMsg.result r :: taskLoopMsgs task rest
    | Except.error e => [WireMsg.exception e]

/-- The full effect trace of `process_loop`: install the SIGBUS handler,
reconfigure logging to the level of the coordinator, call `user_init()`, run
the task loop, send `complete`, close the channel and return. -/
def processLoopTrace {α β E L P : Type} (loglevel : ℕ) (task : α → Except E β)
    (taskArgs : List α) : List (Action β E L P) :=
  Action.installSigbus :: Action.setupLogging loglevel :: Action.initCall ::
    ((taskLoopMsgs task taskArgs).map Action.send
      ++ [Action.send WireMsg.complete, Action.close])

/-- The messages sent over the channel, extracted from a trace. -/
def sentMsgs {β E L P : Type} (tr : List (Action β E L P)) : List (WireMsg β E L) :=
  tr.filterMap fun a =>
    match a with
    | Action.send m => some m
    | _ => none

/-- The sequential fallback of `LambdaExecutor._execute` (the
`use_threads and max_workers == 1` branch): execute each task directly,
in order, and call `task_finished(result, pbar)` for each.  There is no
exception handling, no initializer call, no channel and no process. -/
def fallbackTrace {α β E L P : Type} (task : α → β) (pbar : P) :
    List α → List (Action β E L P)
  | [] => []
  | a :: rest => Action.taskFinished (task a) pbar :: fallbackTrace task pbar rest

/-- Which machinery `LambdaExecutor._execute` sets up: the sequential
fallback, or the parallel path with one spawned process per produced
group. -/
inductive Plan (α : Type) where
  | sequential
  | parallel (groups : List (List α))
deriving DecidableEq

/-- The branch taken by `LambdaExecutor._execute` and, on the parallel
branch, the groups it spawns workers for. -/
def planOf {α : Type} (useThreads : Bool) (maxWorkers : ℕ)
    (taskArguments : List (Option α)) : Plan (Option α) :=
  if useThreads = true ∧ maxWorkers = 1 then Plan.sequential
  else Plan.parallel (workerGroups maxWorkers taskArguments)

/-- Number of worker processes spawned: one per chunk of `grouped_args`
on the parallel path, none on the fallback path. -/
def spawnCount {α : Type} : Plan α → ℕ
  | Plan.sequential => 0
  | Plan.parallel groups => groups.length

theorem sentMsgs_nil {β E L P : Type} : sentMsgs ([] : List (Action β E L P)) = [] := rfl

theorem sentMsgs_send_cons {β E L P : Type} (m : WireMsg β E L)
    (tr : List (Action β E L P)) :
    sentMsgs (Action.send m :: tr) = m :: sentMsgs tr := rfl

theorem sentMsgs_map_send {β E L P : Type} (ms : List (WireMsg β E L))
    (tr : List (Action β E L P)) :
    sentMsgs (ms.map Action.send ++ tr) = ms ++ sentMsgs tr := by
  induction ms with
  | nil => rfl
  | cons m ms ih => rw [List.map_cons, List.cons_append, sentMsgs_send_cons, ih]; rfl

/-- The channel traffic of a worker is its task-loop messages followed by
exactly one `complete`. -/
theorem sentMsgs_processLoopTrace {α β E L P : Type} (lvl : ℕ)
    (task : α → Except E β) (args : List α) :
    sentMsgs (processLoopTrace (L := L) (P := P) lvl task args)
      = taskLoopMsgs task args ++ [WireMsg.complete] := by
  unfold processLoopTrace
  rw [show Action.installSigbus :: Action.setupLogging lvl :: Action.initCall ::
        ((taskLoopMsgs (L := L) task args).map (Action.send (P := P))
          ++ [Action.send WireMsg.complete, Action.close])
      = (Action.installSigbus (P := P) :: Action.setupLogging lvl :: Action.initCall :: [])
          ++ ((taskLoopMsgs (L := L) task args).map Action.send
            ++ [Action.send WireMsg.complete, Action.close]) from rfl]
  rw [show sentMsgs ((Action.installSigbus (β := β) (E := E) (L := L) (P := P)
        :: Action.setupLogging lvl :: Action.initCall :: [])
          ++ ((taskLoopMsgs task args).map Action.send
            ++ [Action.send WireMsg.complete, Action.close]))
      = sentMsgs ((taskLoopMsgs (L := L) task args).map (Action.send (P := P))
          ++ [Action.send WireMsg.complete, Action.close]) from rfl]
  rw [sentMsgs_map_send]
  rfl

theorem complete_not_mem_taskLoopMsgs {α β E L : Type} (task : α → Except E β)
    (args : List α) : WireMsg.complete ∉ taskLoopMsgs (L := L) task args := by
  induction args with
  | nil => simp [taskLoopMsgs]
  | cons a rest ih =>
    unfold taskLoopMsgs
    cases task a with
    | ok r => simp [ih]
    | error e => simp

theorem processLoopTrace_getLast {α β E L P : Type} (lvl : ℕ)
    (task : α → Except E β) (args : List α) :
    (processLoopTrace (L := L) (P := P) lvl task args).getLast? = some Action.close := by
  unfold processLoopTrace
  have h : Action.installSigbus :: Action.setupLogging lvl :: Action.initCall ::
      ((taskLoopMsgs (L := L) task args).map (Action.send (P := P))
        ++ [Action.send WireMsg.complete, Action.close])
      = (Action.installSigbus :: Action.setupLogging lvl :: Action.initCall ::
          ((taskLoopMsgs (L := L) task args).map (Action.send (P := P))
            ++ [Action.send WireMsg.complete])) ++ [Action.close] := by
    simp [List.cons_append, List.append_assoc]
  rw [h, List.getLast?_concat]

/-- C5: for every task group — empty or not, and whether the task loop
runs to completion or stops early on a failure — the worker sends exactly
one `complete` message, as the last message after the loop (so also after
an `exception` message), and the last action of the worker is closing its
channel before returning. -/
theorem c5_single_complete_then_close {α β E L P : Type} (lvl : ℕ)
    (task : α → Except E β) (args : List α) :
    (∃ ms, sentMsgs (processLoopTrace (L := L) (P := P) lvl task args)
        = ms ++ [WireMsg.complete] ∧ WireMsg.complete ∉ ms)
    ∧ (processLoopTrace (L := L) (P := P) lvl task args).getLast? = some Action.close := by
  constructor
  · exact ⟨taskLoopMsgs task args, sentMsgs_processLoopTrace lvl task args,
      complete_not_mem_taskLoopMsgs task args⟩
  · exact processLoopTrace_getLast lvl task args

theorem taskLoopMsgs_fail_at {α β E L : Type} (task : α → Except E β) (e : E) :
    ∀ (args : List α) (k : ℕ) (bs : List β) (hk : k < args.length),
      (args.take k).map task = bs.map Except.ok →
      task args[k] = Except.error e →
      taskLoopMsgs (L := L) task args = bs.map WireMsg.result ++ [WireMsg.exception e] := by
  intro args
  induction args with
  | nil =>
    intro k bs hk
    exact absurd hk (by simp)
  | cons a rest ih =>
    intro k bs hk hok herr
    cases k with
    | zero =>
      have hbs : bs = [] := by
        cases bs with
        | nil => rfl
        | cons b bs2 => simp at hok
      subst hbs
      simp only [List.getElem_cons_zero] at herr
      unfold taskLoopMsgs
      rw [herr]
      rfl
    | succ k =>
      cases bs with
      | nil =>
        rw [List.take_succ_cons, List.map_cons] at hok
        simp at hok
      | cons b bs2 =>
        rw [List.take_succ_cons, List.map_cons, List.map_cons] at hok
        injection hok with h1 h2
        simp only [List.getElem_cons_succ] at herr
        unfold taskLoopMsgs
        rw [h1, ih k bs2 (by simpa using hk) h2 herr]
        rfl

/-- C3: if the task callable fails at position `k` of a worker group —
succeeding with values `bs` on positions `0 … k-1` — the channel of the worker
carries exactly the `k` result messages for those positions, in order,
then one exception message with the raised error, and no result message
for any later position (only the unconditional trailing `complete`). -/
theorem c3_worker_fail_fast {α β E L P : Type} (lvl : ℕ) (task : α → Except E β)
    (args : List α) (k : ℕ) (bs : List β) (e : E) (hk : k < args.length)
    (hok : (args.take k).map task = bs.map Except.ok)
    (herr : task args[k] = Except.error e) :
    sentMsgs (processLoopTrace (L := L) (P := P) lvl task args)
      = bs.map WireMsg.result ++ [WireMsg.exception e, WireMsg.complete] := by
  rw [sentMsgs_processLoopTrace, taskLoopMsgs_fail_at task e args k bs hk hok herr,
    List.append_assoc]
  rfl

/-- Witness for C3: three tasks, the second one failing. -/
theorem c3_witness :
    (1 < ([1, 2, 3] : List ℕ).length
      ∧ (([1, 2, 3] : List ℕ).take 1).map
            (fun n => if n = 2 then Except.error ("boom") else Except.ok (10 * n))
          = ([10] : List ℕ).map Except.ok)
    ∧ sentMsgs (processLoopTrace (L := LogRecord) (P := Unit) 0
          (fun n => if n = 2 then Except.error ("boom") else Except.ok (10 * n)) [1, 2, 3])
        = ([10] : List ℕ).map WireMsg.result
          ++ [WireMsg.exception ("boom"), WireMsg.complete] :=
  ⟨⟨by decide, rfl⟩,
    c3_worker_fail_fast 0
      (fun n => if n = 2 then Except.error ("boom") else Except.ok (10 * n))
      [1, 2, 3] 1 [10] ("boom") (by decide) rfl rfl⟩

/-- C9: the sequential fallback never calls the supplied worker
initializer — its trace contains no `initCall` — while every spawned
worker calls it exactly once, after the logging setup and before any
message of the task loop is sent. -/
theorem c9_fallback_skips_user_init {α β E L P : Type} (task1 : α → β) (pbar : P)
    (args1 : List α) (lvl : ℕ) (task2 : α → Except E β) (args2 : List α) :
    Action.initCall ∉ fallbackTrace (E := E) (L := L) task1 pbar args1
    ∧ ∃ rest, processLoopTrace (L := L) (P := P) lvl task2 args2
        = Action.installSigbus :: Action.setupLogging lvl :: Action.initCall :: rest
        ∧ Action.initCall ∉ rest := by
  constructor
  · induction args1 with
    | nil => simp [fallbackTrace]
    | cons a rest ih => simp [fallbackTrace, ih]
  · refine ⟨(taskLoopMsgs task2 args2).map Action.send
      ++ [Action.send WireMsg.complete, Action.close], rfl, ?_⟩
    intro hmem
    rcases List.mem_append.mp hmem with h | h
    · rcases List.mem_map.mp h with ⟨m, _, hEq⟩
      exact Action.noConfusion hEq
    · simp at h

/-- C6: with `use_threads` and `max_workers = 1` the executor takes the
sequential fallback: no partitioning, no spawned process, and the tasks
are executed directly in input order, `task_finished` being called once
per task, in input order, with the progress sink. -/
theorem c6_sequential_mode {α β γ E L P : Type} (task : α → β) (pbar : P)
    (args : List (Option γ)) (targs : List α) :
    planOf true 1 args = Plan.sequential
    ∧ spawnCount (planOf true 1 args) = 0
    ∧ fallbackTrace (E := E) (L := L) task pbar targs
        = targs.map fun a => Action.taskFinished (task a) pbar := by
  refine ⟨?_, ?_, ?_⟩
  · unfold planOf
    rw [if_pos ⟨rfl, rfl⟩]
  · unfold planOf
    rw [if_pos ⟨rfl, rfl⟩]
    rfl
  · induction targs with
    | nil => rfl
    | cons a rest ih => simp [fallbackTrace, ih]

/-- Model of `ConnectionLogHandler.enqueue`: a log record emitted inside a
worker is sent over its channel as a log-tagged message, the
structured record unchanged. -/
def enqueue {β E : Type} (record : LogRecord) : WireMsg β E LogRecord :=
  WireMsg.log record

/-- Coordinator-side state of the receive loop in `LambdaExecutor._execute`:
the connections still in the `connections` list (by index), the values
passed to `task_finished` so far (in call order), the records re-emitted
through the logging subsystem of the coordinator (paired with the logger name
they are addressed to, `record.name`), whether `terminate()` was
requested for all processes, and whether the post-loop `join()` over all
processes was executed. -/
structure CoordState (β E : Type) where
  active : List ℕ
  finished : List β
  logs : List (String × LogRecord)
  terminated : Bool
  joined : Bool
deriving DecidableEq

/-- What `wait(connections)` reports for one ready connection: either a
received message or end-of-file (the worker closed its end). -/
inductive Event (β E : Type) where
  | recv (m : WireMsg β E LogRecord)
  | eof
deriving DecidableEq

/-- The coordinator state used at loop entry. -/
def initState {β E : Type} (conns : List ℕ) : CoordState β E :=
  CoordState.mk conns [] [] false false

/-- One iteration body of the receive loop (`_execute`, the `for result
in wait(connections)` body): `EOFError` and `complete` remove the
connection from the active list; `result` invokes `task_finished`;
`log` re-emits the record via `logging.getLogger(record.name)
.handle(record)`; `exception` terminates every process and re-raises the
received error (returned as `some e`); a message with any other tag
matches no branch of the `elif` chain and changes nothing. -/
def coordStep {β E : Type} (s : CoordState β E) (c : ℕ) (ev : Event β E) :
    CoordState β E × Option E :=
  match ev with
  | Event.eof =>
    (CoordState.mk (s.active.erase c) s.finished s.logs s.terminated s.joined, none)
  | Event.recv m =>
    match m with
    | WireMsg.result b =>
      (CoordState.mk s.active (s.finished ++ [b]) s.logs s.terminated s.joined, none)
    | WireMsg.log r =>
      (CoordState.mk s.active s.finished (s.logs ++ [(r.name, r)]) s.terminated s.joined,
        none)
    | WireMsg.complete =>
      (CoordState.mk (s.active.erase c) s.finished s.logs s.terminated s.joined, none)
    | WireMsg.exception e =>
      (CoordState.mk s.active s.finished s.logs true s.joined, some e)
    | WireMsg.other => (s, none)

/-- The receive loop (`while connections: for result in wait(...)`),
driven by a schedule: the order in which `wait` hands over ready events.
Events for connections no longer in the active list cannot be produced by
`wait` and are skipped.  The loop stops when the active list is empty or
when a step raises. -/
def coordLoop {β E : Type} : CoordState β E → List (ℕ × Event β E) →
    CoordState β E × Option E
  | s, [] => (s, none)
  | s, (c, ev) :: rest =>
    if s.active = [] then (s, none)
    else if c ∈ s.active then
      match coordStep s c ev with
      | (s2, some e) => (s2, some e)
      | (s2, none) => coordLoop s2 rest
    else coordLoop s rest

/-- The whole of `_execute` after spawning, on a given schedule: run the
receive loop; if it finishes normally with every connection gone, execute
the trailing `for process in processes: process.join()` (recorded by
`joined := true`); if the loop raised, the `raise` propagates out of
`_execute` and the trailing join is never reached. -/
def coordRun {β E : Type} (sched : List (ℕ × Event β E)) (s : CoordState β E) :
    CoordState β E × Option E :=
  match coordLoop s sched with
  | (s2, some e) => (s2, some e)
  | (s2, none) =>
    if s2.active = [] then
      (CoordState.mk s2.active s2.finished s2.logs s2.terminated true, none)
    else (s2, none)

theorem coordLoop_cons {β E : Type} (s : CoordState β E) (c : ℕ) (ev : Event β E)
    (rest : List (ℕ × Event β E)) :
    coordLoop s ((c, ev) :: rest)
      = if s.active = [] then (s, none)
        else if c ∈ s.active then
          match coordStep s c ev with
          | (s2, some e) => (s2, some e)
          | (s2, none) => coordLoop s2 rest
        else coordLoop s rest := rfl

theorem coordLoop_active_nil {β E : Type} (s : CoordState β E)
    (h : s.active = []) (sched : List (ℕ × Event β E)) :
    coordLoop s sched = (s, none) := by
  cases sched with
  | nil => rfl
  | cons x rest =>
    rcases x with ⟨c, ev⟩
    unfold coordLoop
    rw [if_pos h]

theorem workerGroups_nil {γ : Type} (W : ℕ) :
    workerGroups W ([] : List (Option γ)) = [] := by
  unfold workerGroups zipLongest maxLen
  rw [splitEvery_nil]
  rfl

/-- C2 (amended): when the coordinator receives an `exception` message
from any worker, it requests termination of every worker process
(`terminated := true`) and re-raises the received error, which propagates
out of `_execute` at once: the rest of the schedule is not processed and
the post-loop `join()` over the processes is *not* executed (`joined` is
left as it was — the join happens only on the normal loop exit). -/
theorem c2_exception_terminates_and_raises {β E : Type} (c : ℕ) (e : E)
    (sched : List (ℕ × Event β E)) (s : CoordState β E) (hc : c ∈ s.active) :
    coordRun ((c, Event.recv (WireMsg.exception e)) :: sched) s
      = (CoordState.mk s.active s.finished s.logs true s.joined, some e) := by
  have hne : s.active ≠ [] := List.ne_nil_of_mem hc
  have h2 : coordLoop s ((c, Event.recv (WireMsg.exception e)) :: sched)
      = (CoordState.mk s.active s.finished s.logs true s.joined, some e) := by
    rw [coordLoop_cons, if_neg hne, if_pos hc]
    rfl
  unfold coordRun
  rw [h2]

/-- Witness for the amended claim C2: two workers, worker 0 reports an
exception. -/
theorem c2_witness :
    0 ∈ (initState (β := ℕ) (E := String) [0, 1]).active
    ∧ coordRun [(0, Event.recv (WireMsg.exception ("boom")))]
        (initState (β := ℕ) (E := String) [0, 1])
      = (CoordState.mk [0, 1] [] [] true false, some ("boom")) :=
  ⟨by decide,
    c2_exception_terminates_and_raises 0 ("boom") [] (initState [0, 1]) (by decide)⟩

/-- Counterexample to C2 as stated: in a run where worker 0 of two
reports an exception, the error propagates out of the entry point with
the post-loop join over the spawned processes never executed
(`joined = false`), so the coordinator does not wait for (reap) every
spawned process before the exception propagates. -/
theorem c2_counterexample :
    (coordRun [(0, Event.recv (WireMsg.exception ("boom")))]
        (initState (β := ℕ) [0, 1])).2 = some ("boom")
    ∧ ((coordRun [(0, Event.recv (WireMsg.exception ("boom")))]
        (initState (β := ℕ) [0, 1])).1).terminated = true
    ∧ ((coordRun [(0, Event.recv (WireMsg.exception ("boom")))]
        (initState (β := ℕ) [0, 1])).1).joined = false := by
  refine ⟨rfl, rfl, rfl⟩

/-- C4 (amended): a received message whose tag is none of the four
recognized variants falls through the `elif` chain of the receive loop and is
silently ignored — the run proceeds exactly as if the message had not
been received; it is not a fatal condition.  (The
`NotImplementedError` guard of the loop concerns `wait()` returning an object that is
not a `Connection`, not an unrecognized message tag.) -/
theorem c4_unknown_tag_ignored {β E : Type} (c : ℕ)
    (sched : List (ℕ × Event β E)) (s : CoordState β E) :
    coordRun ((c, Event.recv WireMsg.other) :: sched) s = coordRun sched s := by
  have h2 : coordLoop s ((c, Event.recv WireMsg.other) :: sched) = coordLoop s sched := by
    by_cases h : s.active = []
    · rw [coordLoop_active_nil s h, coordLoop_active_nil s h]
    · rw [coordLoop_cons, if_neg h]
      by_cases hc : c ∈ s.active
      · rw [if_pos hc]
        rfl
      · rw [if_neg hc]
  unfold coordRun
  rw [h2]

/-- Counterexample to C4 as stated: a single-worker run that receives an
unrecognized-tag message followed by `complete` terminates normally (no
error, loop drained, processes joined) — the unrecognized message does
not abort the run. -/
theorem c4_counterexample :
    (coordRun [(0, Event.recv WireMsg.other), (0, Event.recv WireMsg.complete)]
        (initState (β := ℕ) (E := String) [0])).2 = none
    ∧ ((coordRun [(0, Event.recv WireMsg.other), (0, Event.recv WireMsg.complete)]
        (initState (β := ℕ) (E := String) [0])).1).active = []
    ∧ ((coordRun [(0, Event.recv WireMsg.other), (0, Event.recv WireMsg.complete)]
        (initState (β := ℕ) (E := String) [0])).1).joined = true := by
  refine ⟨rfl, rfl, rfl⟩

/-- C7: on an empty task-argument sequence the partition yields zero
groups, no worker process is spawned on either branch, the fallback
performs no callback, and the coordinator loop over zero connections
returns immediately with zero `task_finished` invocations and no error. -/
theorem c7_empty_input_noop {α β γ E L P β2 E2 : Type} (u : Bool) (W : ℕ)
    (task : α → β) (pbar : P) (sched : List (ℕ × Event β2 E2)) :
    workerGroups W ([] : List (Option γ)) = []
    ∧ spawnCount (planOf u W ([] : List (Option γ))) = 0
    ∧ fallbackTrace (E := E) (L := L) task pbar ([] : List α) = []
    ∧ (coordRun sched (initState (β := β2) (E := E2) [])).1.finished = []
    ∧ (coordRun sched (initState (β := β2) (E := E2) [])).2 = none := by
  have hrun : coordRun sched (initState (β := β2) (E := E2) [])
      = (CoordState.mk [] [] [] false true, none) := by
    unfold coordRun
    rw [coordLoop_active_nil _ rfl]
    rfl
  refine ⟨workerGroups_nil W, ?_, rfl, ?_, ?_⟩
  · unfold planOf
    by_cases h : u = true ∧ W = 1
    · rw [if_pos h]
      rfl
    · rw [if_neg h, workerGroups_nil W]
      rfl
  · rw [hrun]
  · rw [hrun]

/-- C8: a log record emitted inside a worker is sent over the channel by
`ConnectionLogHandler.enqueue` as a log-tagged message carrying the
structured record unchanged, and on receipt the coordinator re-emits
exactly that record through its own logging subsystem addressed by the
original logger name of the record (`logging.getLogger(record.name)
.handle(record)`), leaving level and message content untouched; the run
then continues unchanged. -/
theorem c8_log_forwarding {β E : Type} (c : ℕ) (r : LogRecord)
    (sched : List (ℕ × Event β E)) (s : CoordState β E) (hc : c ∈ s.active) :
    coordRun ((c, Event.recv (enqueue r)) :: sched) s
      = coordRun sched
          (CoordState.mk s.active s.finished (s.logs ++ [(r.name, r)])
            s.terminated s.joined) := by
  have hne : s.active ≠ [] := List.ne_nil_of_mem hc
  have h2 : coordLoop s ((c, Event.recv (enqueue r)) :: sched)
      = coordLoop (CoordState.mk s.active s.finished (s.logs ++ [(r.name, r)])
          s.terminated s.joined) sched := by
    rw [coordLoop_cons, if_neg hne, if_pos hc]
    rfl
  unfold coordRun
  rw [h2]

/-- Witness for C8: a worker emits a WARNING-level record for logger
`x.y`; the coordinator re-emits that record addressed to `x.y`. -/
theorem c8_witness :
    0 ∈ (initState (β := ℕ) (E := String) [0]).active
    ∧ coordRun [(0, Event.recv (enqueue ⟨"x.y", 30, "low disk space"⟩))]
        (initState (β := ℕ) (E := String) [0])
      = coordRun []
          (CoordState.mk [0] [] [("x.y", ⟨"x.y", 30, "low disk space"⟩)] false false) :=
  ⟨by decide,
    c8_log_forwarding 0 ⟨"x.y", 30, "low disk space"⟩ [] (initState [0]) (by decide)⟩

end Semfree
